import Mathlib

/-!
Shallow embedding of the character-overlap detector (`run.py`) and proofs
about its core pipeline: geometry primitives, watermark classifier,
whitespace trimmer, page grouper, overlap finder, position labeler and
statistics engine.  Python floats are modelled as exact rationals; Python
`round(x, 2)` is modelled as round-half-to-even at two decimals.
-/

/-- Round-half-to-even of a rational to an integer (Python `round` semantics). -/
def roundHalfEven (q : ℚ) : ℤ :=
  let f : ℤ := ⌊q⌋
  let r : ℚ := q - (f : ℚ)
  if r < 1/2 then f
  else if 1/2 < r then f + 1
  else if f % 2 = 0 then f else f + 1

/-- Python `round(q, 2)`: round to two decimal places, half to even. -/
def round2 (q : ℚ) : ℚ := (roundHalfEven (q * 100) : ℚ) / 100

/-- An axis-aligned bounding box `(x, y, w, h)` with bottom-left origin. -/
structure Box where
  x : ℚ
  y : ℚ
  w : ℚ
  h : ℚ
  deriving DecidableEq, Repr

/-- Embeds `intersects(a, b)` from `run.py`: strict overlap on both axes. -/
def intersects (a b : Box) : Bool :=
  !(decide (a.x + a.w ≤ b.x) || decide (b.x + b.w ≤ a.x)
    || decide (a.y + a.h ≤ b.y) || decide (b.y + b.h ≤ a.y))

/-- Result of `calculate_overlap_percentage`. -/
structure Metrics where
  overlap_area : ℚ
  percentage_of_a : ℚ
  percentage_of_b : ℚ
  percentage_of_total : ℚ
  deriving DecidableEq, Repr

/-- Embeds `calculate_overlap_percentage(a, b)` from `run.py`. -/
def calculate_overlap_percentage (a b : Box) : Metrics :=
  let x_left := max a.x b.x
  let y_bottom := max a.y b.y
  let x_right := min (a.x + a.w) (b.x + b.w)
  let y_top := min (a.y + a.h) (b.y + b.h)
  if x_right < x_left ∨ y_top < y_bottom then
    ⟨0, 0, 0, 0⟩
  else
    let overlap_area := (x_right - x_left) * (y_top - y_bottom)
    let area_a := a.w * a.h
    let area_b := b.w * b.h
    let total_area := area_a + area_b - overlap_area
    ⟨round2 overlap_area,
     round2 (if area_a > 0 then overlap_area / area_a * 100 else 0),
     round2 (if area_b > 0 then overlap_area / area_b * 100 else 0),
     round2 (if total_area > 0 then overlap_area / total_area * 100 else 0)⟩

/-- A raw glyph record from the extractor: `char`, optional `page`,
`bbox`, `fontSize`. -/
structure GlyphRec where
  char : String
  page : Option ℤ
  bbox : Box
  fontSize : ℚ
  deriving DecidableEq, Repr

/-- Python `str.upper()` restricted to ASCII case mapping. -/
def pyUpper (s : String) : String := s.map Char.toUpper

/-- Python membership of a string in a set of single characters. -/
def pyStrInCharSet (s : String) (cs : List Char) : Bool :=
  match s.toList with
  | [c] => cs.contains c
  | _ => false

/-- The watermark letter set `set('UNCORRECTEDPROFDTALIMWY')`. -/
def watermark_chars : List Char := "UNCORRECTEDPROFDTALIMWY".toList

/-- Embeds `is_watermark(glyph, watermark_font_size=40, watermark_patterns=None)`
from `run.py`; the pattern list is accepted but never consulted. -/
def is_watermark (glyph : GlyphRec) (watermark_font_size : ℚ := 40)
    (watermark_patterns : Option (List String) := none) : Bool :=
  if watermark_font_size ≤ glyph.fontSize then true
  else if 20 < glyph.fontSize ∧ glyph.char.length = 1
      ∧ pyStrInCharSet (pyUpper glyph.char) watermark_chars = true then true
  else false

/-- Per-side trim fractions, as returned by the character trim table. -/
structure TrimProfile where
  left : ℚ
  right : ℚ
  top : ℚ
  bottom : ℚ
  deriving DecidableEq, Repr

/-- Python `str.isdigit()` (ASCII fragment). -/
def pyIsDigit (s : String) : Bool := !s.isEmpty && s.all Char.isDigit

/-- Python `str.isalpha()` (ASCII fragment). -/
def pyIsAlpha (s : String) : Bool := !s.isEmpty && s.all Char.isAlpha

/-- Embeds `_get_char_trim_percents(ch, scale)` from `run.py`: the fixed
category-to-trim table, every value scaled by `scale`. -/
def _get_char_trim_percents (ch : String) (scale : ℚ := 1) : TrimProfile :=
  let punct_small : List Char := [',', '.', ';', ':', '`', '\'', '"']
  let thin_stems : List Char := ['i', 'l', '|', '1', 't']
  let hooks : List Char := ['f', 'j']
  let brackets : List Char := ['(', ')', '[', ']', '\x7b', '\x7d']
  let math_ops : List Char := ['+', '-', '=', '×', '÷', '/', '*', '\\']
  let quotes : List Char := ['“', '”', '‘', '’', '"', '\'']
  let diacritics : List Char := ['˜', '^', '~', 'ˇ', '˘', '¨', '˚', '˙', '˛', '˝']
  let lrtb : ℚ × ℚ :=
    if pyStrInCharSet ch punct_small then ((0.25 : ℚ) * scale, (0.25 : ℚ) * scale)
    else if pyStrInCharSet ch thin_stems then ((0.12 : ℚ) * scale, (0.18 : ℚ) * scale)
    else if pyStrInCharSet ch hooks then ((0.10 : ℚ) * scale, (0.12 : ℚ) * scale)
    else if pyStrInCharSet ch brackets || pyStrInCharSet ch quotes then
      ((0.08 : ℚ) * scale, (0.10 : ℚ) * scale)
    else if pyStrInCharSet ch math_ops then ((0.10 : ℚ) * scale, (0.10 : ℚ) * scale)
    else if pyStrInCharSet ch diacritics then ((0.20 : ℚ) * scale, (0.20 : ℚ) * scale)
    else if pyIsDigit ch then ((0.06 : ℚ) * scale, (0.08 : ℚ) * scale)
    else if pyIsAlpha ch then ((0.07 : ℚ) * scale, (0.10 : ℚ) * scale)
    else ((0.05 : ℚ) * scale, (0.05 : ℚ) * scale)
  ⟨lrtb.1, lrtb.1, lrtb.2, lrtb.2⟩

/-- Embeds `_apply_trim(bbox, percents)` from `run.py`: per-side percentage trim
with the 0.1 floor on the resulting width and height. -/
def _apply_trim (bbox : Box) (percents : TrimProfile) : Box :=
  if bbox.w ≤ 0 ∨ bbox.h ≤ 0 then bbox
  else
    let dx_left := bbox.w * percents.left
    let dx_right := bbox.w * percents.right
    let dy_top := bbox.h * percents.top
    let dy_bottom := bbox.h * percents.bottom
    ⟨bbox.x + dx_left, bbox.y + dy_bottom,
     max (0.1 : ℚ) (bbox.w - dx_left - dx_right),
     max (0.1 : ℚ) (bbox.h - dy_top - dy_bottom)⟩

/-- A per-page glyph dict as built by `group_glyphs_by_page`. -/
structure PageGlyph where
  char : String
  x : ℚ
  y : ℚ
  width : ℚ
  height : ℚ
  deriving DecidableEq, Repr

/-- Embeds `by_page.setdefault(page, []).append(glyph_dict)` on an
insertion-ordered association list. -/
def appendAt : List (ℤ × List PageGlyph) → ℤ → PageGlyph → List (ℤ × List PageGlyph)
  | [], p, g => [(p, [g])]
  | (q, gs) :: rest, p, g =>
    if q = p then (q, gs ++ [g]) :: rest else (q, gs) :: appendAt rest p g

/-- Loop body of `group_glyphs_by_page`, processing glyph records in order
into the accumulated page map. -/
def group_glyphs_go : List GlyphRec → Bool → Bool → ℚ → List (ℤ × List PageGlyph) →
    Except String (List (ℤ × List PageGlyph))
  | [], _, _, _, acc => .ok acc
  | g :: rest, fw, ct, ts, acc =>
    match g.page with
    | none => .error "Glyph record missing page number"
    | some p =>
      if fw && is_watermark g then group_glyphs_go rest fw ct ts acc
      else
        let bbox := if ct then _apply_trim g.bbox (_get_char_trim_percents g.char ts) else g.bbox
        group_glyphs_go rest fw ct ts
          (appendAt acc p ⟨g.char, bbox.x, bbox.y, bbox.w, bbox.h⟩)

/-- Embeds `group_glyphs_by_page(glyphs_list, filter_watermarks, enable_char_trim,
trim_scale)` from `run.py`; raising is modelled as `Except.error`. -/
def group_glyphs_by_page (glyphs_list : List GlyphRec) (filter_watermarks : Bool := true)
    (enable_char_trim : Bool := false) (trim_scale : ℚ := 1) :
    Except String (List (ℤ × List PageGlyph)) :=
  group_glyphs_go glyphs_list filter_watermarks enable_char_trim trim_scale []

/-- The box `(float(g['x']), float(g['y']), float(g['width']), float(g['height']))`. -/
def toBox (g : PageGlyph) : Box := ⟨g.x, g.y, g.width, g.height⟩

/-- One overlap info dict from `find_overlaps_by_page`. -/
structure OverlapRecord where
  page : ℤ
  a : Box
  b : Box
  char_a : String
  char_b : String
  percentage_of_union : ℚ
  deriving DecidableEq, Repr

/-- The upper-triangular pair enumeration `(i, j), i < j` of the per-page
double loop, in scan order. -/
def pagePairs : List PageGlyph → List (PageGlyph × PageGlyph)
  | [] => []
  | g :: rest => rest.map (fun g2 => (g, g2)) ++ pagePairs rest

/-- The overlap dict appended for a kept pair. -/
def mkRecord (p : ℤ) (gi gj : PageGlyph) : OverlapRecord :=
  ⟨p, toBox gi, toBox gj, gi.char, gj.char,
   (calculate_overlap_percentage (toBox gi) (toBox gj)).percentage_of_total⟩

/-- One page's scan over its pairs: kept overlap dicts in scan order, the
`total` counter and the `filtered_count` counter. -/
def scanPairs (p : ℤ) (thr : ℚ) : List (PageGlyph × PageGlyph) → List OverlapRecord × ℕ × ℕ
  | [] => ([], 0, 0)
  | (gi, gj) :: rest =>
    let r := scanPairs p thr rest
    if intersects (toBox gi) (toBox gj) then
      if thr < (calculate_overlap_percentage (toBox gi) (toBox gj)).percentage_of_total then
        (mkRecord p gi gj :: r.1, r.2.1 + 1, r.2.2)
      else (r.1, r.2.1, r.2.2 + 1)
    else r

/-- Embeds `page_rects.add(box)`: value-deduplicating insertion. -/
def addRect (rects : List Box) (b : Box) : List Box :=
  if b ∈ rects then rects else rects ++ [b]

/-- The `page_rects` set accumulated over one page's pairs. -/
def pageRects (thr : ℚ) : List (PageGlyph × PageGlyph) → List Box → List Box
  | [], acc => acc
  | (gi, gj) :: rest, acc =>
    if intersects (toBox gi) (toBox gj)
        && decide (thr < (calculate_overlap_percentage (toBox gi) (toBox gj)).percentage_of_total) then
      pageRects thr rest (addRect (addRect acc (toBox gi)) (toBox gj))
    else pageRects thr rest acc

/-- The quadruple returned by `find_overlaps_by_page`. -/
structure FindResult where
  overlaps : List OverlapRecord
  highlights_by_page : List (ℤ × List Box)
  total_overlaps : ℕ
  filtered_count : ℕ
  deriving DecidableEq, Repr

/-- Embeds `find_overlaps_by_page(glyphs_by_page, overlap_percentage_threshold)`
from `run.py`, over an insertion-ordered page map. -/
def find_overlaps_by_page : List (ℤ × List PageGlyph) → ℚ → FindResult
  | [], _ => ⟨[], [], 0, 0⟩
  | (p, glyphs) :: rest, thr =>
    let pairs := pagePairs glyphs
    let s := scanPairs p thr pairs
    let rects := pageRects thr pairs []
    let r := find_overlaps_by_page rest thr
    ⟨s.1 ++ r.overlaps,
     (if rects.isEmpty then [] else [(p, rects)]) ++ r.highlights_by_page,
     s.2.1 + r.total_overlaps,
     s.2.2 + r.filtered_count⟩

/-- Embeds `get_position_label(x, y, page_width, page_height)` from `run.py`. -/
def get_position_label (x y page_width page_height : ℚ) : String :=
  let v_third := page_height / 3
  let v_pos := if y < v_third then "bottom" else if y < 2 * v_third then "middle" else "top"
  let h_third := page_width / 3
  let h_pos := if x < h_third then "left" else if x < 2 * h_third then "center" else "right"
  v_pos ++ "-" ++ h_pos

/-- Embeds the `Counter` increment: bump the first matching key, else append `(c, 1)`. -/
def bump : List (String × ℕ) → String → List (String × ℕ)
  | [], c => [(c, 1)]
  | (d, k) :: rest, c => if d = c then (d, k + 1) :: rest else (d, k) :: bump rest c

/-- The `char_counts` Counter of `calculate_character_statistics`: one bump
per slot of every overlap, keys in first-insertion order. -/
def char_counts (overlaps : List OverlapRecord) : List (String × ℕ) :=
  overlaps.foldl (fun m o => bump (bump m o.char_a) o.char_b) []

/-- Embeds `Counter.most_common()`: entries sorted by count descending (stable). -/
def most_common (m : List (String × ℕ)) : List (String × ℕ) :=
  m.mergeSort (fun a b => decide (b.2 ≤ a.2))

/-- One entry of the character-statistics table. -/
structure CharStat where
  character : String
  overlap_count : ℕ
  percentage : ℚ
  deriving DecidableEq, Repr

/-- The dict returned by `calculate_character_statistics`; in the empty
case the source omits the total-occurrences key, modelled as `0`. -/
structure CharStatsResult where
  character_stats : List CharStat
  total_unique_chars : ℕ
  total_character_occurrences : ℕ
  deriving DecidableEq, Repr

/-- Embeds `calculate_character_statistics(overlaps)` from `run.py`. -/
def calculate_character_statistics (overlaps : List OverlapRecord) : CharStatsResult :=
  let cc := char_counts overlaps
  if cc.isEmpty then ⟨[], 0, 0⟩
  else
    let total_occurrences : ℕ := (cc.map (·.2)).sum
    ⟨(most_common cc).map (fun ck =>
        ⟨ck.1, ck.2, round2 ((ck.2 : ℚ) / (total_occurrences : ℚ) * 100)⟩),
     cc.length, total_occurrences⟩

/-- The raw intersection-rectangle area expression of
`calculate_overlap_percentage` (width times height of the clipped
rectangle, before any guard). -/
def interArea (a b : Box) : ℚ :=
  (min (a.x + a.w) (b.x + b.w) - max a.x b.x) *
    (min (a.y + a.h) (b.y + b.h) - max a.y b.y)

/-- A pair the finder keeps: it intersects and its (rounded)
percentage-of-union strictly exceeds the threshold. -/
def keptPair (thr : ℚ) (pr : PageGlyph × PageGlyph) : Prop :=
  intersects (toBox pr.1) (toBox pr.2) = true
    ∧ thr < (calculate_overlap_percentage (toBox pr.1) (toBox pr.2)).percentage_of_total

instance (thr : ℚ) (pr : PageGlyph × PageGlyph) : Decidable (keptPair thr pr) := by
  unfold keptPair; infer_instance

/-- The character slots of an overlap list: `char_a` and `char_b` of every
overlap, in order. -/
def charSlots (overlaps : List OverlapRecord) : List String :=
  overlaps.flatMap (fun o => [o.char_a, o.char_b])

/-- First-match lookup in the counter association list (0 when absent). -/
def lookupCount : List (String × ℕ) → String → ℕ
  | [], _ => 0
  | (d, k) :: rest, c => if d = c then k else lookupCount rest c

/-- Concrete glyphs and records used in witnesses and counterexamples. -/
def glyphA : GlyphRec := ⟨"A", some 1, ⟨0, 0, 10, 10⟩, 12⟩

/-- The page-1 glyph dict produced from `glyphA`. -/
def pageGlyphA : PageGlyph := ⟨"A", 0, 0, 10, 10⟩

/-- The single overlap record of the two-identical-glyph scenario. -/
def recordAA : OverlapRecord := ⟨1, ⟨0, 0, 10, 10⟩, ⟨0, 0, 10, 10⟩, "A", "A", 100⟩

/-! ## Rounding lemmas -/

theorem roundHalfEven_intCast (k : ℤ) : roundHalfEven (k : ℚ) = k := by
  simp [roundHalfEven, Int.floor_intCast]

theorem round2_zero : round2 0 = 0 := by
  norm_num [round2, roundHalfEven]

theorem round2_hundred : round2 100 = 100 := by
  norm_num [round2, roundHalfEven]

theorem roundHalfEven_pos {q : ℚ} (h : 0 < roundHalfEven q) : 0 < q := by
  have hfl : (⌊q⌋ : ℚ) ≤ q := Int.floor_le q
  dsimp only [roundHalfEven] at h
  split_ifs at h with h1 h2 h3
  · have : (1 : ℚ) ≤ (⌊q⌋ : ℚ) := by exact_mod_cast h
    linarith
  · have : (0 : ℚ) ≤ (⌊q⌋ : ℚ) := by exact_mod_cast Int.lt_add_one_iff.mp h
    linarith
  · have : (1 : ℚ) ≤ (⌊q⌋ : ℚ) := by exact_mod_cast h
    linarith
  · have : (0 : ℚ) ≤ (⌊q⌋ : ℚ) := by exact_mod_cast Int.lt_add_one_iff.mp h
    linarith

theorem round2_pos {q : ℚ} (h : 0 < round2 q) : 0 < q := by
  unfold round2 at h
  have h1 : (0 : ℚ) < (roundHalfEven (q * 100) : ℚ) := by nlinarith
  have h2 : 0 < roundHalfEven (q * 100) := by exact_mod_cast h1
  have h3 := roundHalfEven_pos h2
  nlinarith

/-! ## C4: watermark classifier -/

/-- C4: the watermark classifier returns true whenever the font size is at
least 40 regardless of character; below 40 it returns true only when the
font size exceeds 20 and the glyph is a single character whose upper-cased
form lies in the fixed watermark-letter set; a glyph with fontSize 41 is
always a watermark and a glyph with fontSize 15 and character "a" never is. -/
theorem watermark_classifier_characterization (g : GlyphRec) :
    (40 ≤ g.fontSize → is_watermark g = true)
    ∧ (g.fontSize < 40 → is_watermark g = true →
        20 < g.fontSize ∧ g.char.length = 1
          ∧ pyStrInCharSet (pyUpper g.char) watermark_chars = true)
    ∧ (g.fontSize = 41 → is_watermark g = true)
    ∧ (g.fontSize = 15 → g.char = "a" → is_watermark g = false) := by
  refine ⟨?_, ?_, ?_, ?_⟩
  · intro h
    simp [is_watermark, h]
  · intro hlt hw
    unfold is_watermark at hw
    rw [if_neg (by linarith)] at hw
    split_ifs at hw with h2
    exact h2
  · intro h
    have : (40 : ℚ) ≤ g.fontSize := by rw [h]; norm_num
    simp [is_watermark, this]
  · intro hf hc
    have h1 : ¬ ((40 : ℚ) ≤ g.fontSize) := by rw [hf]; norm_num
    have h2 : ¬ ((20 : ℚ) < g.fontSize) := by rw [hf]; norm_num
    simp [is_watermark, h1, h2]

/-- Witness for C4 at fontSize 41 with a two-character glyph and at
fontSize 15 with character "a". -/
theorem watermark_classifier_characterization_witness :
    is_watermark ⟨"zz", some 1, ⟨0, 0, 1, 1⟩, 41⟩ = true
    ∧ is_watermark ⟨"a", some 1, ⟨0, 0, 1, 1⟩, 15⟩ = false :=
  ⟨(watermark_classifier_characterization ⟨"zz", some 1, ⟨0, 0, 1, 1⟩, 41⟩).2.2.1 rfl,
   (watermark_classifier_characterization ⟨"a", some 1, ⟨0, 0, 1, 1⟩, 15⟩).2.2.2 rfl rfl⟩

/-! ## C9: position labeler -/

/-- C9: the position labeler uses half-open third boundaries — strictly
below a third boundary falls in the lower bucket and a value exactly at a
boundary falls in the higher bucket — and on a 300 by 300 page the points
(10,10), (290,290) and (150,150) label bottom-left, top-right and
middle-center respectively. -/
theorem position_labeler_thirds (x y pw ph : ℚ) (hpw : 0 ≤ pw) (hph : 0 ≤ ph) :
    (y < ph/3 → x < pw/3 → get_position_label x y pw ph = "bottom-left")
    ∧ (y < ph/3 → pw/3 ≤ x → x < 2*(pw/3) → get_position_label x y pw ph = "bottom-center")
    ∧ (y < ph/3 → 2*(pw/3) ≤ x → get_position_label x y pw ph = "bottom-right")
    ∧ (ph/3 ≤ y → y < 2*(ph/3) → x < pw/3 → get_position_label x y pw ph = "middle-left")
    ∧ (ph/3 ≤ y → y < 2*(ph/3) → pw/3 ≤ x → x < 2*(pw/3) →
        get_position_label x y pw ph = "middle-center")
    ∧ (ph/3 ≤ y → y < 2*(ph/3) → 2*(pw/3) ≤ x → get_position_label x y pw ph = "middle-right")
    ∧ (2*(ph/3) ≤ y → x < pw/3 → get_position_label x y pw ph = "top-left")
    ∧ (2*(ph/3) ≤ y → pw/3 ≤ x → x < 2*(pw/3) → get_position_label x y pw ph = "top-center")
    ∧ (2*(ph/3) ≤ y → 2*(pw/3) ≤ x → get_position_label x y pw ph = "top-right")
    ∧ get_position_label 10 10 300 300 = "bottom-left"
    ∧ get_position_label 290 290 300 300 = "top-right"
    ∧ get_position_label 150 150 300 300 = "middle-center" := by
  refine ⟨?_, ?_, ?_, ?_, ?_, ?_, ?_, ?_, ?_, ?_, ?_, ?_⟩
  · intro h1 h2
    simp only [get_position_label]
    rw [if_pos h1, if_pos h2]
    rfl
  · intro h1 h2 h3
    simp only [get_position_label]
    rw [if_pos h1, if_neg (not_lt.mpr h2), if_pos h3]
    rfl
  · intro h1 h2
    simp only [get_position_label]
    rw [if_pos h1, if_neg (not_lt.mpr (by linarith)), if_neg (not_lt.mpr h2)]
    rfl
  · intro h1 h2 h3
    simp only [get_position_label]
    rw [if_neg (not_lt.mpr h1), if_pos h2, if_pos h3]
    rfl
  · intro h1 h2 h3 h4
    simp only [get_position_label]
    rw [if_neg (not_lt.mpr h1), if_pos h2, if_neg (not_lt.mpr h3), if_pos h4]
    rfl
  · intro h1 h2 h3
    simp only [get_position_label]
    rw [if_neg (not_lt.mpr h1), if_pos h2, if_neg (not_lt.mpr (by linarith)),
      if_neg (not_lt.mpr h3)]
    rfl
  · intro h1 h2
    simp only [get_position_label]
    rw [if_neg (not_lt.mpr (by linarith)), if_neg (not_lt.mpr h1), if_pos h2]
    rfl
  · intro h1 h2 h3
    simp only [get_position_label]
    rw [if_neg (not_lt.mpr (by linarith)), if_neg (not_lt.mpr h1),
      if_neg (not_lt.mpr h2), if_pos h3]
    rfl
  · intro h1 h2
    simp only [get_position_label]
    rw [if_neg (not_lt.mpr (by linarith)), if_neg (not_lt.mpr h1),
      if_neg (not_lt.mpr (by linarith)), if_neg (not_lt.mpr h2)]
    rfl
  · norm_num [get_position_label]
    rfl
  · norm_num [get_position_label]
    rfl
  · norm_num [get_position_label]
    rfl

/-- Witness for C9: the general bucket rules applied at a concrete point
on a 300 by 300 page. -/
theorem position_labeler_thirds_witness :
    get_position_label 250 250 300 300 = "top-right" :=
  (position_labeler_thirds 250 250 300 300 (by norm_num) (by norm_num)).2.2.2.2.2.2.2.2.1
    (by norm_num) (by norm_num)

/-! ## C2: trim invariant -/

/-- C2 counterexample: for the box (0, 0, 0.05, 1) and per-side fractions
all equal to 0.1 (which lie in [0, 1)), the trimmed width is 0.1, strictly
larger than the original width 0.05 — so the claimed `w' ≤ w` and the
nesting of the trimmed box inside the original both fail. -/
theorem trim_invariant_counterexample :
    ((0 : ℚ) ≤ 1/10 ∧ (1/10 : ℚ) < 1)
    ∧ (⟨0, 0, 1/20, 1⟩ : Box).w < (_apply_trim ⟨0, 0, 1/20, 1⟩ ⟨1/10, 1/10, 1/10, 1/10⟩).w
    ∧ (⟨0, 0, 1/20, 1⟩ : Box).x + (⟨0, 0, 1/20, 1⟩ : Box).w
        < (_apply_trim ⟨0, 0, 1/20, 1⟩ ⟨1/10, 1/10, 1/10, 1/10⟩).x
          + (_apply_trim ⟨0, 0, 1/20, 1⟩ ⟨1/10, 1/10, 1/10, 1/10⟩).w := by
  norm_num [_apply_trim]

/-- C2 (amended): trimming box (x, y, w, h) with nonnegative per-side
fractions yields x' ≥ x, y' ≥ y, w' ≤ w, h' ≤ h with w', h' ≥ 0.1, and the
trimmed box nests inside the original, provided the box is nondegenerate
and the un-floored trimmed dimensions stay at least 0.1 (without that
proviso the 0.1 floor can enlarge a box thinner than 0.1). -/
theorem trim_invariant_amended (bbox : Box) (pr : TrimProfile)
    (hl : 0 ≤ pr.left) (hr : 0 ≤ pr.right) (ht : 0 ≤ pr.top) (hb : 0 ≤ pr.bottom)
    (hw : 0 < bbox.w) (hh : 0 < bbox.h)
    (hwmin : 1/10 ≤ bbox.w * (1 - pr.left - pr.right))
    (hhmin : 1/10 ≤ bbox.h * (1 - pr.top - pr.bottom)) :
    bbox.x ≤ (_apply_trim bbox pr).x
    ∧ bbox.y ≤ (_apply_trim bbox pr).y
    ∧ (_apply_trim bbox pr).w ≤ bbox.w
    ∧ (_apply_trim bbox pr).h ≤ bbox.h
    ∧ 1/10 ≤ (_apply_trim bbox pr).w
    ∧ 1/10 ≤ (_apply_trim bbox pr).h
    ∧ (_apply_trim bbox pr).x + (_apply_trim bbox pr).w ≤ bbox.x + bbox.w
    ∧ (_apply_trim bbox pr).y + (_apply_trim bbox pr).h ≤ bbox.y + bbox.h := by
  have hnot : ¬ (bbox.w ≤ 0 ∨ bbox.h ≤ 0) := by push_neg; exact ⟨hw, hh⟩
  have hwmax : max (0.1 : ℚ) (bbox.w - bbox.w * pr.left - bbox.w * pr.right)
      = bbox.w - bbox.w * pr.left - bbox.w * pr.right := by
    apply max_eq_right
    nlinarith
  have hhmax : max (0.1 : ℚ) (bbox.h - bbox.h * pr.top - bbox.h * pr.bottom)
      = bbox.h - bbox.h * pr.top - bbox.h * pr.bottom := by
    apply max_eq_right
    nlinarith
  have hwl : 0 ≤ bbox.w * pr.left := mul_nonneg hw.le hl
  have hwr : 0 ≤ bbox.w * pr.right := mul_nonneg hw.le hr
  have hht : 0 ≤ bbox.h * pr.top := mul_nonneg hh.le ht
  have hhb : 0 ≤ bbox.h * pr.bottom := mul_nonneg hh.le hb
  simp only [_apply_trim, if_neg hnot, hwmax, hhmax]
  refine ⟨by linarith, by linarith, by linarith, by linarith, ?_, ?_, by linarith, by linarith⟩
  · nlinarith
  · nlinarith

/-- Witness for C2 (amended) at the box (0, 0, 1, 1) with all per-side
fractions 0.05. -/
theorem trim_invariant_amended_witness :
    (_apply_trim ⟨0, 0, 1, 1⟩ ⟨1/20, 1/20, 1/20, 1/20⟩).w ≤ (⟨0, 0, 1, 1⟩ : Box).w :=
  (trim_invariant_amended ⟨0, 0, 1, 1⟩ ⟨1/20, 1/20, 1/20, 1/20⟩
    (by norm_num) (by norm_num) (by norm_num) (by norm_num)
    (by norm_num) (by norm_num) (by norm_num) (by norm_num)).2.2.1

/-! ## C7: overlap metrics are total and guarded -/

/-- C7: for every pair of boxes the metric computation is total; a
percentage whose denominator area (box A area, box B area, or the union
area) is zero comes out as 0, and every returned figure is an integer
number of hundredths, i.e. rounded to two decimals. -/
theorem overlap_metrics_guarded (a b : Box) :
    (a.w * a.h = 0 → (calculate_overlap_percentage a b).percentage_of_a = 0)
    ∧ (b.w * b.h = 0 → (calculate_overlap_percentage a b).percentage_of_b = 0)
    ∧ (a.w * a.h + b.w * b.h - interArea a b = 0 →
        (calculate_overlap_percentage a b).percentage_of_total = 0)
    ∧ (∃ k : ℤ, (calculate_overlap_percentage a b).overlap_area = (k : ℚ) / 100)
    ∧ (∃ k : ℤ, (calculate_overlap_percentage a b).percentage_of_a = (k : ℚ) / 100)
    ∧ (∃ k : ℤ, (calculate_overlap_percentage a b).percentage_of_b = (k : ℚ) / 100)
    ∧ (∃ k : ℤ, (calculate_overlap_percentage a b).percentage_of_total = (k : ℚ) / 100) := by
  refine ⟨?_, ?_, ?_, ?_, ?_, ?_, ?_⟩
  · intro h0
    dsimp only [calculate_overlap_percentage]
    split_ifs <;> first | rfl | exact round2_zero | linarith
  · intro h0
    dsimp only [calculate_overlap_percentage]
    split_ifs <;> first | rfl | exact round2_zero | linarith
  · intro h0
    dsimp only [interArea] at h0
    dsimp only [calculate_overlap_percentage]
    split_ifs <;> first | rfl | exact round2_zero | linarith
  · dsimp only [calculate_overlap_percentage]
    split_ifs <;> first | exact ⟨_, rfl⟩ | exact ⟨0, by norm_num⟩
  · dsimp only [calculate_overlap_percentage]
    split_ifs <;> first | exact ⟨_, rfl⟩ | exact ⟨0, by norm_num⟩
  · dsimp only [calculate_overlap_percentage]
    split_ifs <;> first | exact ⟨_, rfl⟩ | exact ⟨0, by norm_num⟩
  · dsimp only [calculate_overlap_percentage]
    split_ifs <;> first | exact ⟨_, rfl⟩ | exact ⟨0, by norm_num⟩

/-- Witness for C7: a zero-width box A yields percentage-of-a 0. -/
theorem overlap_metrics_guarded_witness :
    (calculate_overlap_percentage ⟨0, 0, 0, 5⟩ ⟨0, 0, 2, 2⟩).percentage_of_a = 0 :=
  (overlap_metrics_guarded ⟨0, 0, 0, 5⟩ ⟨0, 0, 2, 2⟩).1 (by norm_num)

/-! ## C5: two identical glyphs scenario -/

/-- C5: identical nondegenerate boxes yield percentage-of-a =
percentage-of-b = percentage-of-union = 100; and running the pipeline with
default watermark filtering, no trim and threshold 0 on exactly two copies
of the glyph ("A", page 1, bbox (0,0,10,10), fontSize 12) produces exactly
one OverlapRecord whose percentage-of-union is 100. -/
theorem two_identical_glyphs_scenario :
    (∀ bx : Box, 0 < bx.w → 0 < bx.h →
      (calculate_overlap_percentage bx bx).percentage_of_a = 100
      ∧ (calculate_overlap_percentage bx bx).percentage_of_b = 100
      ∧ (calculate_overlap_percentage bx bx).percentage_of_total = 100)
    ∧ group_glyphs_by_page [glyphA, glyphA] = .ok [(1, [pageGlyphA, pageGlyphA])]
    ∧ (find_overlaps_by_page [(1, [pageGlyphA, pageGlyphA])] 0).overlaps = [recordAA]
    ∧ (find_overlaps_by_page [(1, [pageGlyphA, pageGlyphA])] 0).total_overlaps = 1
    ∧ recordAA.percentage_of_union = 100 := by
  refine ⟨?_, ?_, ?_, ?_, rfl⟩
  · intro bx hw hh
    have hne : bx.w * bx.h ≠ 0 := (mul_pos hw hh).ne'
    have harea : (bx.x + bx.w) ⊓ (bx.x + bx.w) - bx.x ⊔ bx.x = bx.w := by
      rw [min_self, max_self]; ring
    have hareah : (bx.y + bx.h) ⊓ (bx.y + bx.h) - bx.y ⊔ bx.y = bx.h := by
      rw [min_self, max_self]; ring
    have hnotcond : ¬ ((bx.x + bx.w) ⊓ (bx.x + bx.w) < bx.x ⊔ bx.x
        ∨ (bx.y + bx.h) ⊓ (bx.y + bx.h) < bx.y ⊔ bx.y) := by
      rw [min_self, max_self, min_self, max_self]
      push_neg
      constructor <;> linarith
    dsimp only [calculate_overlap_percentage]
    rw [if_neg hnotcond, harea, hareah]
    have hcond : bx.w * bx.h > 0 := mul_pos hw hh
    have htot : bx.w * bx.h + bx.w * bx.h - bx.w * bx.h > 0 := by linarith
    refine ⟨?_, ?_, ?_⟩
    · show round2 (if bx.w * bx.h > 0 then bx.w * bx.h / (bx.w * bx.h) * 100 else 0) = 100
      rw [if_pos hcond, div_self hne, one_mul, round2_hundred]
    · show round2 (if bx.w * bx.h > 0 then bx.w * bx.h / (bx.w * bx.h) * 100 else 0) = 100
      rw [if_pos hcond, div_self hne, one_mul, round2_hundred]
    · show round2 (if bx.w * bx.h + bx.w * bx.h - bx.w * bx.h > 0 then
        bx.w * bx.h / (bx.w * bx.h + bx.w * bx.h - bx.w * bx.h) * 100 else 0) = 100
      rw [if_pos htot, show bx.w * bx.h + bx.w * bx.h - bx.w * bx.h = bx.w * bx.h from by ring,
        div_self hne, one_mul, round2_hundred]
  · norm_num [group_glyphs_by_page, group_glyphs_go, is_watermark, appendAt,
      glyphA, pageGlyphA]
  · norm_num [find_overlaps_by_page, scanPairs, pagePairs, pageRects, mkRecord, toBox,
      intersects, calculate_overlap_percentage, round2, roundHalfEven, addRect,
      pageGlyphA, recordAA]
  · norm_num [find_overlaps_by_page, scanPairs, pagePairs, pageRects, mkRecord, toBox,
      intersects, calculate_overlap_percentage, round2, roundHalfEven, addRect,
      pageGlyphA]

/-- Witness for C5: the identical-box rule applied to the concrete box
(0, 0, 10, 10). -/
theorem two_identical_glyphs_scenario_witness :
    (calculate_overlap_percentage ⟨0, 0, 10, 10⟩ ⟨0, 0, 10, 10⟩).percentage_of_total = 100 :=
  (two_identical_glyphs_scenario.1 ⟨0, 0, 10, 10⟩ (by norm_num) (by norm_num)).2.2

/-! ## C6: grouper fails exactly on null page numbers -/

theorem group_glyphs_go_error_iff (l : List GlyphRec) (fw ct : Bool) (ts : ℚ) :
    ∀ acc, (group_glyphs_go l fw ct ts acc = .error "Glyph record missing page number"
      ↔ ∃ g ∈ l, g.page = none) := by
  induction l with
  | nil => intro acc; simp [group_glyphs_go]
  | cons g rest ih =>
    intro acc
    cases hp : g.page with
    | none =>
      simp only [group_glyphs_go, hp]
      constructor
      · intro _; exact ⟨g, List.mem_cons_self g rest, hp⟩
      · intro _; trivial
    | some p =>
      simp only [group_glyphs_go, hp]
      split_ifs with hw <;> rw [ih] <;> simp [hp]

theorem group_glyphs_go_ok (l : List GlyphRec) (fw ct : Bool) (ts : ℚ) :
    ∀ acc, (∀ g ∈ l, g.page ≠ none) →
      ∃ m, group_glyphs_go l fw ct ts acc = .ok m := by
  induction l with
  | nil => intro acc _; exact ⟨acc, rfl⟩
  | cons g rest ih =>
    intro acc hall
    cases hp : g.page with
    | none => exact absurd hp (hall g (List.mem_cons_self g rest))
    | some p =>
      simp only [group_glyphs_go, hp]
      have hrest : ∀ x ∈ rest, x.page ≠ none :=
        fun x hx => hall x (List.mem_cons_of_mem g hx)
      split_ifs with hw <;> exact ih _ hrest

/-- C6: the page grouper fails with the missing-page data error exactly
when some glyph record has a null page number; when every glyph has a page
number it returns a per-page map without raising. -/
theorem grouper_fails_iff_null_page (glyphs : List GlyphRec) (fw ct : Bool) (ts : ℚ) :
    (group_glyphs_by_page glyphs fw ct ts = .error "Glyph record missing page number"
      ↔ ∃ g ∈ glyphs, g.page = none)
    ∧ ((∀ g ∈ glyphs, g.page ≠ none) →
        ∃ m, group_glyphs_by_page glyphs fw ct ts = .ok m) :=
  ⟨group_glyphs_go_error_iff glyphs fw ct ts [],
   group_glyphs_go_ok glyphs fw ct ts []⟩

/-- Witness for C6: a single glyph with a null page fails with the data
error, and a single well-formed glyph succeeds. -/
theorem grouper_fails_iff_null_page_witness :
    group_glyphs_by_page [⟨"a", none, ⟨0, 0, 1, 1⟩, 12⟩]
      = .error "Glyph record missing page number"
    ∧ ∃ m, group_glyphs_by_page [glyphA] = .ok m :=
  ⟨(grouper_fails_iff_null_page [⟨"a", none, ⟨0, 0, 1, 1⟩, 12⟩] true false 1).1.mpr
      ⟨⟨"a", none, ⟨0, 0, 1, 1⟩, 12⟩, by simp, rfl⟩,
   (grouper_fails_iff_null_page [glyphA] true false 1).2 (by simp [glyphA])⟩

/-! ## Overlap finder lemmas -/

theorem keptPair_cond_iff (thr : ℚ) (gi gj : PageGlyph) :
    (intersects (toBox gi) (toBox gj)
      && decide (thr < (calculate_overlap_percentage (toBox gi) (toBox gj)).percentage_of_total))
        = true
      ↔ keptPair thr (gi, gj) := by
  simp [keptPair]

theorem scanPairs_total_eq_length (p : ℤ) (thr : ℚ) :
    ∀ pairs, (scanPairs p thr pairs).2.1 = (scanPairs p thr pairs).1.length := by
  intro pairs
  induction pairs with
  | nil => rfl
  | cons pr rest ih =>
    obtain ⟨gi, gj⟩ := pr
    simp only [scanPairs]
    split_ifs <;> simp [ih]

theorem scanPairs_mem_pct (p : ℤ) (thr : ℚ) :
    ∀ pairs r, r ∈ (scanPairs p thr pairs).1 →
      thr < r.percentage_of_union ∧ r.page = p := by
  intro pairs
  induction pairs with
  | nil => intro r hr; simp [scanPairs] at hr
  | cons pr rest ih =>
    obtain ⟨gi, gj⟩ := pr
    intro r hr
    simp only [scanPairs] at hr
    split_ifs at hr with h1 h2
    · rcases List.mem_cons.mp hr with heq | hmem
      · subst heq; exact ⟨h2, rfl⟩
      · exact ih r hmem
    · exact ih r hr
    · exact ih r hr

theorem scanPairs_mono (p : ℤ) (t1 t2 : ℚ) (h : t1 ≤ t2) :
    ∀ pairs, (scanPairs p t2 pairs).2.1 ≤ (scanPairs p t1 pairs).2.1 := by
  intro pairs
  induction pairs with
  | nil => exact le_refl _
  | cons pr rest ih =>
    obtain ⟨gi, gj⟩ := pr
    simp only [scanPairs]
    split_ifs with h1 h2 h3 h3
    · simpa using ih
    · exact absurd (lt_of_le_of_lt h h2) h3
    · simpa using Nat.le_succ_of_le ih
    · simpa using ih
    · simpa using ih

theorem mem_scanPairs (p : ℤ) (thr : ℚ) :
    ∀ pairs (gi gj : PageGlyph), (gi, gj) ∈ pairs →
      intersects (toBox gi) (toBox gj) = true →
      thr < (calculate_overlap_percentage (toBox gi) (toBox gj)).percentage_of_total →
      mkRecord p gi gj ∈ (scanPairs p thr pairs).1 := by
  intro pairs
  induction pairs with
  | nil => intro gi gj hmem; simp at hmem
  | cons pr rest ih =>
    obtain ⟨gi', gj'⟩ := pr
    intro gi gj hmem hint hpct
    rcases List.mem_cons.mp hmem with heq | hmem'
    · rw [Prod.mk.injEq] at heq
      obtain ⟨e1, e2⟩ := heq
      subst e1; subst e2
      simp only [scanPairs]
      rw [if_pos hint, if_pos hpct]
      exact List.mem_cons_self _ _
    · have hin := ih gi gj hmem' hint hpct
      simp only [scanPairs]
      split_ifs <;> first | exact List.mem_cons_of_mem _ hin | exact hin

theorem scanPairs_eq_nil_iff (p : ℤ) (thr : ℚ) :
    ∀ pairs, (scanPairs p thr pairs).1 = [] ↔ ∀ pr ∈ pairs, ¬ keptPair thr pr := by
  intro pairs
  induction pairs with
  | nil => simp [scanPairs]
  | cons pr rest ih =>
    obtain ⟨gi, gj⟩ := pr
    simp only [scanPairs]
    split_ifs with h1 h2
    · constructor
      · intro hfalse; simp at hfalse
      · intro hall
        exact absurd ⟨h1, h2⟩ (hall (gi, gj) (List.mem_cons_self _ _))
    · rw [ih]
      constructor
      · intro hall pr' hpr'
        rcases List.mem_cons.mp hpr' with heq | hmem
        · subst heq; exact fun hk => h2 hk.2
        · exact hall pr' hmem
      · intro hall pr' hpr'
        exact hall pr' (List.mem_cons_of_mem _ hpr')
    · rw [ih]
      constructor
      · intro hall pr' hpr'
        rcases List.mem_cons.mp hpr' with heq | hmem
        · subst heq; exact fun hk => h1 hk.1
        · exact hall pr' hmem
      · intro hall pr' hpr'
        exact hall pr' (List.mem_cons_of_mem _ hpr')

theorem addRect_nodup (rects : List Box) (b : Box) (h : rects.Nodup) :
    (addRect rects b).Nodup := by
  unfold addRect
  split_ifs with hmem
  · exact h
  · simpa [List.nodup_append] using ⟨h, hmem⟩

theorem addRect_ne_nil (rects : List Box) (b : Box) : addRect rects b ≠ [] := by
  unfold addRect
  split_ifs with hmem
  · exact List.ne_nil_of_mem hmem
  · simp

theorem pageRects_nodup (thr : ℚ) :
    ∀ pairs acc, acc.Nodup → (pageRects thr pairs acc).Nodup := by
  intro pairs
  induction pairs with
  | nil => intro acc h; exact h
  | cons pr rest ih =>
    obtain ⟨gi, gj⟩ := pr
    intro acc h
    simp only [pageRects]
    split_ifs with hc
    · exact ih _ (addRect_nodup _ _ (addRect_nodup _ _ h))
    · exact ih _ h

theorem pageRects_acc_ne_nil (thr : ℚ) :
    ∀ pairs acc, acc ≠ [] → pageRects thr pairs acc ≠ [] := by
  intro pairs
  induction pairs with
  | nil => intro acc h; exact h
  | cons pr rest ih =>
    obtain ⟨gi, gj⟩ := pr
    intro acc h
    simp only [pageRects]
    split_ifs with hc
    · exact ih _ (addRect_ne_nil _ _)
    · exact ih _ h

theorem pageRects_eq_nil_iff (thr : ℚ) :
    ∀ pairs, pageRects thr pairs [] = [] ↔ ∀ pr ∈ pairs, ¬ keptPair thr pr := by
  intro pairs
  induction pairs with
  | nil => simp [pageRects]
  | cons pr rest ih =>
    obtain ⟨gi, gj⟩ := pr
    simp only [pageRects]
    split_ifs with hc
    · constructor
      · intro hfalse
        exact absurd hfalse (pageRects_acc_ne_nil thr rest _ (addRect_ne_nil _ _))
      · intro hall
        exact absurd ((keptPair_cond_iff thr gi gj).mp hc)
          (hall (gi, gj) (List.mem_cons_self _ _))
    · rw [ih]
      constructor
      · intro hall pr' hpr'
        rcases List.mem_cons.mp hpr' with heq | hmem
        · subst heq
          intro hk
          exact hc ((keptPair_cond_iff thr gi gj).mpr hk)
        · exact hall pr' hmem
      · intro hall pr' hpr'
        exact hall pr' (List.mem_cons_of_mem _ hpr')

theorem find_total_eq_length (thr : ℚ) :
    ∀ m, (find_overlaps_by_page m thr).total_overlaps
      = (find_overlaps_by_page m thr).overlaps.length := by
  intro m
  induction m with
  | nil => rfl
  | cons e rest ih =>
    obtain ⟨p, glyphs⟩ := e
    simp only [find_overlaps_by_page]
    simp [scanPairs_total_eq_length, ih]

theorem find_mono (t1 t2 : ℚ) (h : t1 ≤ t2) :
    ∀ m, (find_overlaps_by_page m t2).total_overlaps
      ≤ (find_overlaps_by_page m t1).total_overlaps := by
  intro m
  induction m with
  | nil => exact le_refl _
  | cons e rest ih =>
    obtain ⟨p, glyphs⟩ := e
    simp only [find_overlaps_by_page]
    exact Nat.add_le_add (scanPairs_mono p t1 t2 h _) ih

theorem find_mem_pct (thr : ℚ) :
    ∀ m r, r ∈ (find_overlaps_by_page m thr).overlaps →
      thr < r.percentage_of_union := by
  intro m
  induction m with
  | nil => intro r hr; simp [find_overlaps_by_page] at hr
  | cons e rest ih =>
    obtain ⟨p, glyphs⟩ := e
    intro r hr
    simp only [find_overlaps_by_page] at hr
    rcases List.mem_append.mp hr with hl | hrr
    · exact (scanPairs_mem_pct p thr _ r hl).1
    · exact ih r hrr

theorem mem_find_of_page (thr : ℚ) :
    ∀ m (p : ℤ) (glyphs : List PageGlyph), (p, glyphs) ∈ m →
      ∀ r, r ∈ (scanPairs p thr (pagePairs glyphs)).1 →
        r ∈ (find_overlaps_by_page m thr).overlaps := by
  intro m
  induction m with
  | nil => intro p glyphs hmem; simp at hmem
  | cons e rest ih =>
    obtain ⟨q, gs⟩ := e
    intro p glyphs hmem r hr
    rcases List.mem_cons.mp hmem with heq | hmem'
    · rw [Prod.mk.injEq] at heq
      obtain ⟨e1, e2⟩ := heq
      subst e1; subst e2
      simp only [find_overlaps_by_page]
      exact List.mem_append_left _ hr
    · simp only [find_overlaps_by_page]
      exact List.mem_append_right _ (ih p glyphs hmem' r hr)

theorem find_highlights_nodup (thr : ℚ) :
    ∀ m e, e ∈ (find_overlaps_by_page m thr).highlights_by_page → e.2.Nodup := by
  intro m
  induction m with
  | nil => intro e he; simp [find_overlaps_by_page] at he
  | cons pe rest ih =>
    obtain ⟨p, glyphs⟩ := pe
    intro e he
    simp only [find_overlaps_by_page] at he
    rcases List.mem_append.mp he with hl | hrr
    · split_ifs at hl with hempty
      · simp at hl
      · rcases List.mem_singleton.mp hl with heq
        subst heq
        exact pageRects_nodup thr _ [] List.nodup_nil
    · exact ih e hrr

theorem find_highlights_key_iff (thr : ℚ) :
    ∀ m (p : ℤ), p ∈ (find_overlaps_by_page m thr).highlights_by_page.map Prod.fst
      ↔ ∃ r ∈ (find_overlaps_by_page m thr).overlaps, r.page = p := by
  intro m
  induction m with
  | nil => intro p; simp [find_overlaps_by_page]
  | cons pe rest ih =>
    obtain ⟨q, glyphs⟩ := pe
    intro p
    simp only [find_overlaps_by_page, List.map_append, List.mem_append]
    constructor
    · intro h
      rcases h with hl | hrr
      · have hq : p = q ∧ ¬ (pageRects thr (pagePairs glyphs) []).isEmpty = true := by
          split_ifs at hl with hempty
          · simp at hl
          · simp at hl
            exact ⟨hl, hempty⟩
        obtain ⟨hpq, hne⟩ := hq
        subst hpq
        have hne' : pageRects thr (pagePairs glyphs) [] ≠ [] := by
          simpa [List.isEmpty_iff] using hne
        have hkept : ¬ ∀ pr ∈ pagePairs glyphs, ¬ keptPair thr pr := by
          intro hall
          exact hne' ((pageRects_eq_nil_iff thr (pagePairs glyphs)).mpr hall)
        push_neg at hkept
        obtain ⟨pr, hpr, hk⟩ := hkept
        obtain ⟨gi, gj⟩ := pr
        obtain ⟨hint, hpct⟩ := hk
        refine ⟨mkRecord p gi gj, Or.inl ?_, rfl⟩
        exact mem_scanPairs p thr (pagePairs glyphs) gi gj hpr hint hpct
      · obtain ⟨r, hr, hrp⟩ := (ih p).mp hrr
        exact ⟨r, Or.inr hr, hrp⟩
    · rintro ⟨r, hr, hrp⟩
      rcases hr with hl | hrr
      · left
        have hpage := (scanPairs_mem_pct q thr _ r hl).2
        have hne : (scanPairs q thr (pagePairs glyphs)).1 ≠ [] := List.ne_nil_of_mem hl
        have hkept : ¬ ∀ pr ∈ pagePairs glyphs, ¬ keptPair thr pr := by
          intro hall
          exact hne ((scanPairs_eq_nil_iff q thr (pagePairs glyphs)).mpr hall)
        have hrne : pageRects thr (pagePairs glyphs) [] ≠ [] := by
          intro hnil
          exact hkept ((pageRects_eq_nil_iff thr (pagePairs glyphs)).mp hnil)
        rw [if_neg (by simpa [List.isEmpty_iff] using hrne)]
        simp [← hrp, hpage]
      · right
        exact (ih p).mpr ⟨r, hrr, hrp⟩

theorem mem_pagePairs (glyphs : List PageGlyph) :
    ∀ i j (hij : i < j) (hj : j < glyphs.length),
      (glyphs.get ⟨i, lt_trans hij hj⟩, glyphs.get ⟨j, hj⟩) ∈ pagePairs glyphs := by
  induction glyphs with
  | nil => intro i j hij hj; simp at hj
  | cons g rest ih =>
    intro i j hij hj
    simp only [List.get_eq_getElem]
    cases i with
    | zero =>
      cases j with
      | zero => omega
      | succ j' =>
        have hj' : j' < rest.length := by simpa using hj
        simp only [pagePairs, List.getElem_cons_zero, List.getElem_cons_succ]
        exact List.mem_append_left _
          (List.mem_map_of_mem _ (List.getElem_mem hj'))
    | succ i' =>
      cases j with
      | zero => omega
      | succ j' =>
        have hij' : i' < j' := by omega
        have hj' : j' < rest.length := by simpa using hj
        simp only [pagePairs, List.getElem_cons_succ]
        exact List.mem_append_right _ (ih i' j' hij' hj')

theorem pct_total_main (a b : Box)
    (hcond : ¬ ((a.x + a.w) ⊓ (b.x + b.w) < a.x ⊔ b.x
      ∨ (a.y + a.h) ⊓ (b.y + b.h) < a.y ⊔ b.y)) :
    (calculate_overlap_percentage a b).percentage_of_total
      = round2 (if a.w * a.h + b.w * b.h -
            ((a.x + a.w) ⊓ (b.x + b.w) - a.x ⊔ b.x)
              * ((a.y + a.h) ⊓ (b.y + b.h) - a.y ⊔ b.y) > 0
          then ((a.x + a.w) ⊓ (b.x + b.w) - a.x ⊔ b.x)
              * ((a.y + a.h) ⊓ (b.y + b.h) - a.y ⊔ b.y) /
            (a.w * a.h + b.w * b.h - ((a.x + a.w) ⊓ (b.x + b.w) - a.x ⊔ b.x)
              * ((a.y + a.h) ⊓ (b.y + b.h) - a.y ⊔ b.y)) * 100
          else 0) := by
  dsimp only [calculate_overlap_percentage]
  rw [if_neg hcond]

theorem intersects_of_pct_pos (a b : Box)
    (h : 0 < (calculate_overlap_percentage a b).percentage_of_total) :
    intersects a b = true := by
  by_cases hcond : ((a.x + a.w) ⊓ (b.x + b.w) < a.x ⊔ b.x
      ∨ (a.y + a.h) ⊓ (b.y + b.h) < a.y ⊔ b.y)
  · dsimp only [calculate_overlap_percentage] at h
    rw [if_pos hcond] at h
    norm_num at h
  · rw [pct_total_main a b hcond] at h
    split_ifs at h with htot
    · push_neg at hcond
      obtain ⟨hx, hy⟩ := hcond
      have hraw := round2_pos h
      set fx := (a.x + a.w) ⊓ (b.x + b.w) - a.x ⊔ b.x with hfx_def
      set fy := (a.y + a.h) ⊓ (b.y + b.h) - a.y ⊔ b.y with hfy_def
      have hfx0 : 0 ≤ fx := by rw [hfx_def]; linarith
      have hfy0 : 0 ≤ fy := by rw [hfy_def]; linarith
      have hov : 0 < fx * fy := by
        by_contra hle
        push_neg at hle
        have hdiv : fx * fy / (a.w * a.h + b.w * b.h - fx * fy) ≤ 0 :=
          div_nonpos_iff.mpr (Or.inr ⟨hle, htot.le⟩)
        linarith
      have hfx : 0 < fx := by
        rcases hfx0.lt_or_eq with hlt | heq
        · exact hlt
        · rw [← heq] at hov; simp at hov
      have hfy : 0 < fy := by
        rcases hfy0.lt_or_eq with hlt | heq
        · exact hlt
        · rw [← heq] at hov; simp at hov
      have hmaxmin_x : a.x ⊔ b.x < (a.x + a.w) ⊓ (b.x + b.w) := by
        rw [hfx_def] at hfx; linarith
      have hmaxmin_y : a.y ⊔ b.y < (a.y + a.h) ⊓ (b.y + b.h) := by
        rw [hfy_def] at hfy; linarith
      have h1 : b.x < a.x + a.w :=
        lt_of_le_of_lt (le_max_right a.x b.x) (lt_of_lt_of_le hmaxmin_x (min_le_left _ _))
      have h2 : a.x < b.x + b.w :=
        lt_of_le_of_lt (le_max_left a.x b.x) (lt_of_lt_of_le hmaxmin_x (min_le_right _ _))
      have h3 : b.y < a.y + a.h :=
        lt_of_le_of_lt (le_max_right a.y b.y) (lt_of_lt_of_le hmaxmin_y (min_le_left _ _))
      have h4 : a.y < b.y + b.h :=
        lt_of_le_of_lt (le_max_left a.y b.y) (lt_of_lt_of_le hmaxmin_y (min_le_right _ _))
      simp only [intersects, Bool.not_or, Bool.and_eq_true, Bool.not_eq_true',
        decide_eq_false_iff_not, not_le]
      exact ⟨⟨⟨h1, h2⟩, h3⟩, h4⟩
    · rw [round2_zero] at h
      exact absurd h (lt_irrefl 0)

/-! ## C1: threshold-0 keeps nonzero intersections (corrected) -/

/-- C1 counterexample: boxes (0,0,1,1) and (0,0,100000,1) on one page have
intersection area 1 (nonzero, and they intersect), yet at threshold 0 the
finder keeps nothing and counts the pair as filtered out: the
percentage-of-union 0.001 rounds to 0.00, which is not strictly above 0. -/
theorem tiny_overlap_filtered_counterexample :
    0 < interArea (toBox ⟨"a", 0, 0, 1, 1⟩) (toBox ⟨"b", 0, 0, 100000, 1⟩)
    ∧ intersects (toBox ⟨"a", 0, 0, 1, 1⟩) (toBox ⟨"b", 0, 0, 100000, 1⟩) = true
    ∧ (find_overlaps_by_page [(1, [⟨"a", 0, 0, 1, 1⟩, ⟨"b", 0, 0, 100000, 1⟩])] 0).overlaps = []
    ∧ (find_overlaps_by_page
        [(1, [⟨"a", 0, 0, 1, 1⟩, ⟨"b", 0, 0, 100000, 1⟩])] 0).filtered_count = 1 := by
  refine ⟨by norm_num [interArea, toBox], by norm_num [intersects, toBox], ?_, ?_⟩
  · norm_num [find_overlaps_by_page, scanPairs, pagePairs, pageRects, mkRecord, toBox,
      intersects, calculate_overlap_percentage, round2, roundHalfEven, addRect]
  · norm_num [find_overlaps_by_page, scanPairs, pagePairs, pageRects, mkRecord, toBox,
      intersects, calculate_overlap_percentage, round2, roundHalfEven, addRect]

/-- C1 (amended): at threshold 0 the finder keeps every unordered pair of
glyph boxes on a page whose two-decimal-rounded percentage-of-union is
nonzero; a pair with nonzero intersection whose rounded percentage is 0.00
is filtered out instead. -/
theorem nonzero_rounded_overlap_kept (m : List (ℤ × List PageGlyph)) (p : ℤ)
    (glyphs : List PageGlyph) (i j : ℕ) (hm : (p, glyphs) ∈ m) (hij : i < j)
    (hj : j < glyphs.length)
    (hpct : 0 < (calculate_overlap_percentage (toBox (glyphs.get ⟨i, lt_trans hij hj⟩))
        (toBox (glyphs.get ⟨j, hj⟩))).percentage_of_total) :
    mkRecord p (glyphs.get ⟨i, lt_trans hij hj⟩) (glyphs.get ⟨j, hj⟩)
      ∈ (find_overlaps_by_page m 0).overlaps := by
  have hint := intersects_of_pct_pos _ _ hpct
  have hmemp := mem_pagePairs glyphs i j hij hj
  have hscan := mem_scanPairs p 0 (pagePairs glyphs) _ _ hmemp hint hpct
  exact mem_find_of_page 0 m p glyphs hm _ hscan

/-- Witness for C1 (amended): the pair (0,0,10,10), (5,5,10,10) with
percentage-of-union 14.29 is kept at threshold 0. -/
theorem nonzero_rounded_overlap_kept_witness :
    mkRecord 1 ⟨"A", 0, 0, 10, 10⟩ ⟨"B", 5, 5, 10, 10⟩
      ∈ (find_overlaps_by_page
          [(1, [⟨"A", 0, 0, 10, 10⟩, ⟨"B", 5, 5, 10, 10⟩])] 0).overlaps :=
  nonzero_rounded_overlap_kept [(1, [⟨"A", 0, 0, 10, 10⟩, ⟨"B", 5, 5, 10, 10⟩])] 1
    [⟨"A", 0, 0, 10, 10⟩, ⟨"B", 5, 5, 10, 10⟩] 0 1 (by simp) (by norm_num) (by norm_num)
    (by norm_num [calculate_overlap_percentage, toBox, round2, roundHalfEven])

/-! ## C3: threshold monotonicity -/

/-- C3: raising the union-percentage threshold never increases the total
kept-overlap count, and every kept record's percentage-of-union strictly
exceeds the threshold used. -/
theorem threshold_monotonicity :
    (∀ (m : List (ℤ × List PageGlyph)) (t1 t2 : ℚ), t1 ≤ t2 →
      (find_overlaps_by_page m t2).total_overlaps
        ≤ (find_overlaps_by_page m t1).total_overlaps)
    ∧ (∀ (m : List (ℤ × List PageGlyph)) (t : ℚ) (r : OverlapRecord),
        r ∈ (find_overlaps_by_page m t).overlaps → t < r.percentage_of_union) :=
  ⟨fun m t1 t2 h => find_mono t1 t2 h m, fun m t r hr => find_mem_pct t m r hr⟩

/-- Witness for C3 on the two-identical-glyph page at thresholds 0 and 50. -/
theorem threshold_monotonicity_witness :
    (find_overlaps_by_page [(1, [pageGlyphA, pageGlyphA])] 50).total_overlaps
      ≤ (find_overlaps_by_page [(1, [pageGlyphA, pageGlyphA])] 0).total_overlaps
    ∧ (0 : ℚ) < recordAA.percentage_of_union :=
  ⟨threshold_monotonicity.1 [(1, [pageGlyphA, pageGlyphA])] 0 50 (by norm_num),
   threshold_monotonicity.2 [(1, [pageGlyphA, pageGlyphA])] 0 recordAA
     (by norm_num [find_overlaps_by_page, scanPairs, pagePairs, pageRects, mkRecord, toBox,
       intersects, calculate_overlap_percentage, round2, roundHalfEven, addRect,
       pageGlyphA, recordAA])⟩

/-! ## C10: finder result invariants -/

/-- C10: the finder's returned total equals the length of the overlaps
list; the highlights map has a key for a page exactly when some kept
record lies on that page; and no page's highlight list contains duplicate
boxes. -/
theorem finder_result_invariants (m : List (ℤ × List PageGlyph)) (thr : ℚ) :
    (find_overlaps_by_page m thr).total_overlaps
      = (find_overlaps_by_page m thr).overlaps.length
    ∧ (∀ p : ℤ, p ∈ (find_overlaps_by_page m thr).highlights_by_page.map Prod.fst
        ↔ ∃ r ∈ (find_overlaps_by_page m thr).overlaps, r.page = p)
    ∧ (∀ e ∈ (find_overlaps_by_page m thr).highlights_by_page, e.2.Nodup) :=
  ⟨find_total_eq_length thr m,
   fun p => find_highlights_key_iff thr m p,
   fun e he => find_highlights_nodup thr m e he⟩

/-- Witness for C10 on the two-identical-glyph page: page 1 is a highlight
key because the kept record lies on page 1, and the total equals the list
length. -/
theorem finder_result_invariants_witness :
    (1 : ℤ) ∈ (find_overlaps_by_page
        [(1, [pageGlyphA, pageGlyphA])] 0).highlights_by_page.map Prod.fst
    ∧ (find_overlaps_by_page [(1, [pageGlyphA, pageGlyphA])] 0).total_overlaps
      = (find_overlaps_by_page [(1, [pageGlyphA, pageGlyphA])] 0).overlaps.length :=
  ⟨((finder_result_invariants [(1, [pageGlyphA, pageGlyphA])] 0).2.1 1).mpr
      ⟨recordAA,
       by norm_num [find_overlaps_by_page, scanPairs, pagePairs, pageRects, mkRecord, toBox,
         intersects, calculate_overlap_percentage, round2, roundHalfEven, addRect,
         pageGlyphA, recordAA],
       rfl⟩,
   (finder_result_invariants [(1, [pageGlyphA, pageGlyphA])] 0).1⟩

/-! ## C8: character statistics -/

theorem bump_sum (m : List (String × ℕ)) (c : String) :
    ((bump m c).map (·.2)).sum = (m.map (·.2)).sum + 1 := by
  induction m with
  | nil => simp [bump]
  | cons dk rest ih =>
    obtain ⟨d, k⟩ := dk
    simp only [bump]
    split_ifs with h
    · simp
      omega
    · simp [ih]
      omega

theorem char_counts_sum_aux :
    ∀ (ovs : List OverlapRecord) (m : List (String × ℕ)),
      ((ovs.foldl (fun acc o => bump (bump acc o.char_a) o.char_b) m).map (·.2)).sum
        = (m.map (·.2)).sum + 2 * ovs.length := by
  intro ovs
  induction ovs with
  | nil => intro m; simp
  | cons o rest ih =>
    intro m
    simp only [List.foldl_cons]
    rw [ih, bump_sum, bump_sum]
    simp
    omega

theorem char_counts_sum (ovs : List OverlapRecord) :
    ((char_counts ovs).map (·.2)).sum = 2 * ovs.length := by
  have h := char_counts_sum_aux ovs []
  simpa [char_counts] using h

theorem lookupCount_bump_self (m : List (String × ℕ)) (c : String) :
    lookupCount (bump m c) c = lookupCount m c + 1 := by
  induction m with
  | nil => simp [bump, lookupCount]
  | cons dk rest ih =>
    obtain ⟨d, k⟩ := dk
    simp only [bump]
    split_ifs with h
    · simp [lookupCount, h]
    · simp [lookupCount, h, ih]

theorem lookupCount_bump_ne (m : List (String × ℕ)) (c d : String) (h : d ≠ c) :
    lookupCount (bump m c) d = lookupCount m d := by
  induction m with
  | nil =>
    simp only [bump, lookupCount]
    rw [if_neg (fun he => h he.symm)]
  | cons ek rest ih =>
    obtain ⟨e, k⟩ := ek
    simp only [bump]
    split_ifs with he
    · subst he
      simp only [lookupCount]
      rw [if_neg (fun hcd => h hcd.symm), if_neg (fun hcd => h hcd.symm)]
    · simp only [lookupCount]
      split_ifs with hed
      · rfl
      · exact ih

theorem char_counts_lookup_aux :
    ∀ (ovs : List OverlapRecord) (m : List (String × ℕ)) (c : String),
      lookupCount (ovs.foldl (fun acc o => bump (bump acc o.char_a) o.char_b) m) c
        = lookupCount m c + (charSlots ovs).count c := by
  intro ovs
  induction ovs with
  | nil => intro m c; simp [charSlots]
  | cons o rest ih =>
    intro m c
    simp only [List.foldl_cons]
    rw [ih]
    have hcount : (charSlots (o :: rest)).count c
        = (charSlots rest).count c
          + ((if o.char_a = c then 1 else 0) + (if o.char_b = c then 1 else 0)) := by
      simp only [charSlots, List.flatMap_cons, List.count_append, List.count_cons,
        List.count_nil, beq_iff_eq]
      split_ifs <;> omega
    rw [hcount]
    by_cases ha : o.char_a = c <;> by_cases hb : o.char_b = c
    · rw [if_pos ha, if_pos hb, hb, ha, lookupCount_bump_self, lookupCount_bump_self]
      omega
    · rw [if_pos ha, if_neg hb, lookupCount_bump_ne _ _ _ (fun he => hb he.symm), ha,
        lookupCount_bump_self]
      omega
    · rw [if_neg ha, if_pos hb, hb, lookupCount_bump_self,
        lookupCount_bump_ne _ _ _ (fun he => ha he.symm)]
      omega
    · rw [if_neg ha, if_neg hb, lookupCount_bump_ne _ _ _ (fun he => hb he.symm),
        lookupCount_bump_ne _ _ _ (fun he => ha he.symm)]
      omega

theorem mem_keys_bump (m : List (String × ℕ)) (c x : String) :
    x ∈ (bump m c).map Prod.fst ↔ x ∈ m.map Prod.fst ∨ x = c := by
  induction m with
  | nil => simp [bump]
  | cons dk rest ih =>
    obtain ⟨d, k⟩ := dk
    simp only [bump]
    split_ifs with h
    · subst h
      simp only [List.map_cons, List.mem_cons]
      constructor
      · intro hx
        rcases hx with hx | hx
        · exact Or.inl (Or.inl hx)
        · exact Or.inl (Or.inr hx)
      · intro hx
        rcases hx with (hx | hx) | hx
        · exact Or.inl hx
        · exact Or.inr hx
        · exact Or.inl hx
    · simp only [List.map_cons, List.mem_cons, ih]
      tauto

theorem bump_keys_nodup (m : List (String × ℕ)) (c : String)
    (h : (m.map Prod.fst).Nodup) : ((bump m c).map Prod.fst).Nodup := by
  induction m with
  | nil => simp [bump]
  | cons dk rest ih =>
    obtain ⟨d, k⟩ := dk
    simp only [List.map_cons, List.nodup_cons] at h
    obtain ⟨hd, hrest⟩ := h
    simp only [bump]
    split_ifs with he
    · simp only [List.map_cons, List.nodup_cons]
      exact ⟨hd, hrest⟩
    · simp only [List.map_cons, List.nodup_cons]
      refine ⟨?_, ih hrest⟩
      rw [mem_keys_bump]
      rintro (hx | hx)
      · exact hd hx
      · exact he hx

theorem foldl_keys_nodup :
    ∀ (ovs : List OverlapRecord) (m : List (String × ℕ)),
      (m.map Prod.fst).Nodup →
      ((ovs.foldl (fun acc o => bump (bump acc o.char_a) o.char_b) m).map Prod.fst).Nodup := by
  intro ovs
  induction ovs with
  | nil => intro m h; exact h
  | cons o rest ih =>
    intro m h
    simp only [List.foldl_cons]
    exact ih _ (bump_keys_nodup _ _ (bump_keys_nodup _ _ h))

theorem lookupCount_of_mem :
    ∀ (m : List (String × ℕ)) (c : String) (k : ℕ),
      (m.map Prod.fst).Nodup → (c, k) ∈ m → lookupCount m c = k := by
  intro m
  induction m with
  | nil => intro c k _ hmem; simp at hmem
  | cons dk rest ih =>
    obtain ⟨d, j⟩ := dk
    intro c k hnd hmem
    simp only [List.map_cons, List.nodup_cons] at hnd
    obtain ⟨hd, hrest⟩ := hnd
    rcases List.mem_cons.mp hmem with heq | hmem'
    · rw [Prod.mk.injEq] at heq
      obtain ⟨e1, e2⟩ := heq
      subst e1; subst e2
      simp [lookupCount]
    · have hck : c ∈ rest.map Prod.fst := by
        exact List.mem_map_of_mem Prod.fst hmem'
      have hdc : d ≠ c := fun he => hd (he ▸ hck)
      simp only [lookupCount]
      rw [if_neg hdc]
      exact ih c k hrest hmem'

theorem char_counts_entry (ovs : List OverlapRecord) (c : String) (k : ℕ)
    (h : (c, k) ∈ char_counts ovs) : k = (charSlots ovs).count c := by
  have hnd : ((char_counts ovs).map Prod.fst).Nodup :=
    foldl_keys_nodup ovs [] (by simp)
  have h1 := lookupCount_of_mem (char_counts ovs) c k hnd h
  have h2 := char_counts_lookup_aux ovs [] c
  simp only [char_counts] at h1
  rw [h1] at h2
  simpa [lookupCount] using h2

theorem bump_ne_nil (m : List (String × ℕ)) (c : String) : bump m c ≠ [] := by
  cases m with
  | nil => simp [bump]
  | cons dk rest =>
    obtain ⟨d, k⟩ := dk
    simp only [bump]
    split_ifs <;> simp

theorem char_counts_foldl_ne_nil :
    ∀ (ovs : List OverlapRecord) (m : List (String × ℕ)), m ≠ [] →
      ovs.foldl (fun acc o => bump (bump acc o.char_a) o.char_b) m ≠ [] := by
  intro ovs
  induction ovs with
  | nil => intro m h; exact h
  | cons o rest ih =>
    intro m _
    simp only [List.foldl_cons]
    exact ih _ (bump_ne_nil _ _)

theorem char_counts_eq_nil_iff (ovs : List OverlapRecord) :
    char_counts ovs = [] ↔ ovs = [] := by
  cases ovs with
  | nil => simp [char_counts]
  | cons o rest =>
    simp only [char_counts, List.foldl_cons]
    constructor
    · intro h
      exact absurd h (char_counts_foldl_ne_nil rest _ (bump_ne_nil _ _))
    · intro h
      exact absurd h (by simp)

/-- C8: the statistics engine counts each character once per slot of every
overlap — each entry's count is the number of slots holding that character
and the counts sum to twice the number of overlaps — returns entries
sorted in descending order of count, and annotates each entry with count
divided by total character occurrences times 100, rounded to two decimals. -/
theorem character_statistics_spec (ovs : List OverlapRecord) :
    (calculate_character_statistics ovs).total_character_occurrences = 2 * ovs.length
    ∧ ((calculate_character_statistics ovs).character_stats.map (·.overlap_count)).sum
        = 2 * ovs.length
    ∧ List.Sorted (fun s t => t.overlap_count ≤ s.overlap_count)
        (calculate_character_statistics ovs).character_stats
    ∧ ∀ s ∈ (calculate_character_statistics ovs).character_stats,
        s.overlap_count = (charSlots ovs).count s.character
        ∧ s.percentage = round2 ((s.overlap_count : ℚ)
            / (((calculate_character_statistics ovs).total_character_occurrences : ℚ)) * 100) := by
  by_cases hcc : (char_counts ovs).isEmpty
  · have hnil : char_counts ovs = [] := by simpa [List.isEmpty_iff] using hcc
    have hovs : ovs = [] := (char_counts_eq_nil_iff ovs).mp hnil
    subst hovs
    refine ⟨by simp [calculate_character_statistics, char_counts], ?_, ?_, ?_⟩
    · simp [calculate_character_statistics, char_counts]
    · simp [calculate_character_statistics, char_counts, List.Sorted]
    · intro s hs
      simp [calculate_character_statistics, char_counts] at hs
  · have hres : calculate_character_statistics ovs
        = ⟨(most_common (char_counts ovs)).map (fun ck =>
            ⟨ck.1, ck.2, round2 ((ck.2 : ℚ)
              / ((((char_counts ovs).map (·.2)).sum : ℕ) : ℚ) * 100)⟩),
           (char_counts ovs).length, ((char_counts ovs).map (·.2)).sum⟩ := by
      simp only [calculate_character_statistics]
      rw [if_neg hcc]
    have hperm : List.Perm (most_common (char_counts ovs)) (char_counts ovs) :=
      List.mergeSort_perm (char_counts ovs) _
    have hsum2 : ((most_common (char_counts ovs)).map (·.2)).sum
        = ((char_counts ovs).map (·.2)).sum :=
      (hperm.map (·.2)).sum_eq
    rw [hres]
    refine ⟨?_, ?_, ?_, ?_⟩
    · exact char_counts_sum ovs
    · have hmapmap : ((most_common (char_counts ovs)).map (fun ck : String × ℕ =>
          (⟨ck.1, ck.2, round2 ((ck.2 : ℚ)
            / ((((char_counts ovs).map (·.2)).sum : ℕ) : ℚ) * 100)⟩ : CharStat))).map
              (·.overlap_count)
          = (most_common (char_counts ovs)).map (·.2) := by
        rw [List.map_map]
        rfl
      dsimp only
      rw [hmapmap, hsum2]
      exact char_counts_sum ovs
    · have htrans : ∀ a b c : String × ℕ, decide (b.2 ≤ a.2) = true →
          decide (c.2 ≤ b.2) = true → decide (c.2 ≤ a.2) = true := by
        intro a b c h1 h2
        simp only [decide_eq_true_eq] at *
        omega
      have htotal : ∀ a b : String × ℕ,
          (decide (b.2 ≤ a.2) || decide (a.2 ≤ b.2)) = true := by
        intro a b
        simp only [Bool.or_eq_true, decide_eq_true_eq]
        exact Nat.le_total b.2 a.2
      have hsorted := List.sorted_mergeSort htrans htotal (char_counts ovs)
      have hsorted' : List.Pairwise (fun a b : String × ℕ => b.2 ≤ a.2)
          (most_common (char_counts ovs)) := by
        refine hsorted.imp ?_
        intro a b h
        simpa using h
      dsimp only
      exact hsorted'.map _ (fun a b h => h)
    · intro s hs
      dsimp only at hs
      obtain ⟨ck, hck, rfl⟩ := List.mem_map.mp hs
      have hckcc : ck ∈ char_counts ovs := List.mem_mergeSort.mp hck
      have hpair : (ck.1, ck.2) ∈ char_counts ovs := by
        simpa using hckcc
      constructor
      · exact char_counts_entry ovs ck.1 ck.2 hpair
      · rfl

/-- Witness for C8 on the single-overlap list: character "A" occupies both
slots, so its count is 2 and its percentage is 100. -/
theorem character_statistics_spec_witness :
    (⟨"A", 2, 100⟩ : CharStat).overlap_count = (charSlots [recordAA]).count "A"
    ∧ (⟨"A", 2, 100⟩ : CharStat).percentage
      = round2 (((⟨"A", 2, 100⟩ : CharStat).overlap_count : ℚ)
          / (((calculate_character_statistics [recordAA]).total_character_occurrences : ℕ) : ℚ)
          * 100) := by
  have hmem : (⟨"A", 2, 100⟩ : CharStat)
      ∈ (calculate_character_statistics [recordAA]).character_stats := by
    norm_num [calculate_character_statistics, char_counts, bump, most_common, recordAA,
      round2, roundHalfEven]
  have h := (character_statistics_spec [recordAA]).2.2.2 _ hmem
  exact ⟨h.1, h.2⟩
